/-
Verification of the reconciliation and batched-upload core of the
seller-apis repository (src/seller.py and src/market.py).

The Python functions are shallowly embedded as executable Lean
definitions: the in-place mutation of the caller's offer-identifier list
(Python `list.remove`) is modelled by returning the final state of that
list alongside the produced records, and a Python exception (ValueError
from `int`, raised out of a whole call) is modelled by an `Option` result
that is `none` exactly when the Python call raises.
-/
import Mathlib

/-- Model of Python `int(s)` on a string: strip surrounding whitespace,
accept one optional sign, then a non-empty run of ASCII decimal digits.
Returns `none` where Python raises `ValueError`. -/
def parseDigits (cs : List Char) : Option Nat :=
  if cs = [] then none
  else if cs.all Char.isDigit then
    some (cs.foldl (fun a c => a * 10 + (c.toNat - 48)) 0)
  else none

/-- Strip leading and trailing whitespace, as Python `int` does before
parsing. -/
def pyStrip (cs : List Char) : List Char :=
  ((cs.dropWhile Char.isWhitespace).reverse.dropWhile Char.isWhitespace).reverse

/-- Model of Python `int(s)`: `none` models a raised `ValueError`. -/
def pyInt (s : String) : Option Int :=
  match pyStrip s.data with
  | '-' :: rest => (parseDigits rest).map (fun n => -(n : Int))
  | '+' :: rest => (parseDigits rest).map (fun n => (n : Int))
  | cs => (parseDigits cs).map (fun n => (n : Int))

/-- Model of Python `s.split(".")` on the character list of `s`: the
result is always non-empty, and splitting the empty string yields one
empty field, exactly as in Python. -/
def splitOnDot : List Char → List (List Char)
  | [] => [[]]
  | c :: rest =>
    if c = '.' then [] :: splitOnDot rest
    else
      match splitOnDot rest with
      | [] => [[c]]
      | h :: t => (c :: h) :: t

/-- seller.py `price_conversion` (lines 246-263):
`re.sub("[^0-9]", "", price.split(".")[0])`.  It keeps the part of the
token before the first dot, strips every non-digit character, and
returns the remaining digit string.  It is total: it never raises and
never parses the result. -/
def price_conversion (price : String) : String :=
  ⟨((splitOnDot price.data).headD []).filter Char.isDigit⟩

/-- The inline quantity normalization of seller.py `create_stocks`
(lines 198-204) and market.py `create_stocks` (lines 178-184):
the sentinel `">10"` maps to 100, the literal `"1"` maps to 0, and any
other token goes through Python `int`; `none` models the `ValueError`
that aborts the whole `create_stocks` call. -/
def normalizeQuantity (count : String) : Option Int :=
  if count = ">10" then some 100
  else if count = "1" then some 0
  else pyInt count

/-- seller.py `divide` (lines 266-286): chunks of `n` elements taken at
indices 0, n, 2n, ... (Python `lst[i : i + n]`).  For `n = 0` Python
`range(0, len, 0)` raises `ValueError`; that case is modelled as no
chunks and is never exercised by the program, whose batch sizes are
100, 900, 1000, 500 and 2000. -/
def divide : List α → Nat → List (List α)
  | [], _ => []
  | a :: rest, n =>
    if _hn : 0 < n then
      (a :: rest).take n :: divide ((a :: rest).drop n) n
    else []
termination_by lst _ => lst.length
decreasing_by
  simp only [List.length_drop, List.length_cons]
  omega

/-- One row of the authoritative remnants feed, with the three fields the
core reads: `Код` (code), `Количество` (quantity token), `Цена` (price
token).  The Python code applies `str(...)` to the code and quantity; the
fields are modelled as the resulting strings. -/
structure Watch where
  code : String
  quantity : String
  price : String
deriving DecidableEq

namespace seller

/-- One element of the list built by seller.py `create_stocks`:
`{"offer_id": ..., "stock": ...}`. -/
structure StockRecord where
  offer_id : String
  stock : Int
deriving DecidableEq

/-- One element of the list built by seller.py `create_prices` (lines
235-241), with all five constant-or-computed fields. -/
structure PriceRecord where
  auto_action_enabled : String
  currency_code : String
  offer_id : String
  old_price : String
  price : String
deriving DecidableEq

/-- The first loop of seller.py `create_stocks` (lines 196-206): walk the
feed; a record whose code is a member of the current offer-identifier
list emits a stock record with the normalized quantity and removes that
code from the list (`offer_ids.remove`, first occurrence).  Returns the
emitted records together with the final state of the caller's list;
`none` models the `ValueError` raised by `int` on a malformed quantity
of a matched record. -/
def create_stocks_matched : List Watch → List String →
    Option (List StockRecord × List String)
  | [], offer_ids => some ([], offer_ids)
  | w :: rest, offer_ids =>
    if w.code ∈ offer_ids then
      match normalizeQuantity w.quantity with
      | none => none
      | some stock =>
        match create_stocks_matched rest (offer_ids.erase w.code) with
        | none => none
        | some (stocks, rem) => some (⟨w.code, stock⟩ :: stocks, rem)
    else create_stocks_matched rest offer_ids

/-- seller.py `create_stocks` (lines 174-210): the matching loop, then one
zero-stock record for every identifier still in the (mutated) list.  The
second component is the final state of the caller's `offer_ids` list,
which the Python code has mutated in place. -/
def create_stocks (watch_remnants : List Watch) (offer_ids : List String) :
    Option (List StockRecord × List String) :=
  match create_stocks_matched watch_remnants offer_ids with
  | none => none
  | some (stocks, rem) =>
    some (stocks ++ rem.map (fun id => ⟨id, 0⟩), rem)

/-- seller.py `create_prices` (lines 213-243): one price record per feed
row whose code is in `offer_ids`; nothing is ever removed from
`offer_ids` here, and `price_conversion` is total, so the function is
total and a duplicated feed code yields one record per occurrence. -/
def create_prices : List Watch → List String → List PriceRecord
  | [], _ => []
  | w :: rest, offer_ids =>
    if w.code ∈ offer_ids then
      ⟨"UNKNOWN", "RUB", w.code, "0", price_conversion w.price⟩ ::
        create_prices rest offer_ids
    else create_prices rest offer_ids

/-- One product as returned by the OZON list endpoint, reduced to the one
field `get_offer_ids` reads: `product.get("offer_id")`. -/
structure Product where
  offer_id : String
deriving DecidableEq

/-- One response of OZON `get_product_list` (seller.py lines 37-47),
reduced to the three fields the pager reads: `items`, `total` (absent
modelled as `none`, which Python `None` never equals an integer) and
`last_id`. -/
structure Page where
  items : List Product
  total : Option Nat
  last_id : String
deriving DecidableEq

/-- The `while True` loop of seller.py `get_offer_ids` (lines 69-77),
fuel-indexed because the Python loop need not terminate: each step
fetches the page at the current cursor, extends the accumulator, and
breaks exactly when the reported `total` equals the accumulated length;
`none` means the loop has not exited within `fuel` iterations. -/
def get_offer_ids_loop (page : String → Page) :
    Nat → String → List Product → Option (List Product)
  | 0, _, _ => none
  | fuel + 1, last_id, acc =>
    let p := page last_id
    let acc2 := acc ++ p.items
    if p.total = some acc2.length then some acc2
    else get_offer_ids_loop page fuel p.last_id acc2

/-- seller.py `get_offer_ids` (lines 50-81): run the pagination loop from
cursor `""` and empty accumulator, then map each accumulated product to
its `offer_id`, in page order. -/
def get_offer_ids (page : String → Page) (fuel : Nat) : Option (List String) :=
  (get_offer_ids_loop page fuel "" []).map (List.map Product.offer_id)

/-- The cursor and accumulator of the pagination loop after `n`
iterations that did not break, starting from `("", [])`. -/
def pager_state (page : String → Page) : Nat → String × List Product
  | 0 => ("", [])
  | n + 1 =>
    let s := pager_state page n
    let p := page s.1
    (p.last_id, s.2 ++ p.items)

/-- The break condition of the pagination loop at iteration `n`: the
`total` reported by the page fetched at that iteration equals the
accumulated item count after merging that page. -/
def exit_at (page : String → Page) (n : Nat) : Prop :=
  (page (pager_state page n).1).total =
    some ((pager_state page n).2 ++ (page (pager_state page n).1).items).length

instance (page : String → Page) (n : Nat) : Decidable (exit_at page n) := by
  unfold exit_at; infer_instance

end seller

namespace market

/-- One element of the nested `items` list of a Yandex stock record
(market.py lines 189-195). -/
structure MarketStockItem where
  count : Int
  type : String
  updatedAt : String
deriving DecidableEq

/-- One element of the list built by market.py `create_stocks`
(lines 185-197): `{"sku": ..., "warehouseId": ..., "items": [...]}`. -/
structure MarketStockRecord where
  sku : String
  warehouseId : String
  items : List MarketStockItem
deriving DecidableEq

/-- The nested `price` object of a Yandex price record
(market.py lines 241-246). -/
structure MarketPriceValue where
  value : Int
  currencyId : String
deriving DecidableEq

/-- One element of the list built by market.py `create_prices`
(lines 238-249). -/
structure MarketPriceRecord where
  id : String
  price : MarketPriceValue
deriving DecidableEq

/-- The matching loop of market.py `create_stocks` (lines 176-198):
identical to the seller loop except for the record shape, which nests
the normalized count with the constant type `"FIT"` and the batch
timestamp `date` captured once before the loop (lines 174-175). -/
def create_stocks_matched (date wid : String) : List Watch → List String →
    Option (List MarketStockRecord × List String)
  | [], offer_ids => some ([], offer_ids)
  | w :: rest, offer_ids =>
    if w.code ∈ offer_ids then
      match normalizeQuantity w.quantity with
      | none => none
      | some stock =>
        match create_stocks_matched date wid rest (offer_ids.erase w.code) with
        | none => none
        | some (stocks, rem) =>
          some (⟨w.code, wid, [⟨stock, "FIT", date⟩]⟩ :: stocks, rem)
    else create_stocks_matched date wid rest offer_ids

/-- market.py `create_stocks` (lines 148-214): `date` models the single
`datetime.datetime.utcnow()` call evaluated once at the start of the
run, before the feed is traversed; every record of the run, matched or
zero-stock, embeds this one value.  The second component is the final
state of the caller's `offer_ids` list. -/
def create_stocks (date : String) (watch_remnants : List Watch)
    (offer_ids : List String) (warehouse_id : String) :
    Option (List MarketStockRecord × List String) :=
  match create_stocks_matched date warehouse_id watch_remnants offer_ids with
  | none => none
  | some (stocks, rem) =>
    some (stocks ++ rem.map (fun id => ⟨id, warehouse_id, [⟨0, "FIT", date⟩]⟩), rem)

/-- market.py `create_prices` (lines 217-251): like the seller version
but the converted price goes through Python `int`, so an empty or
non-numeric remainder raises `ValueError` (modelled by `none`) and
aborts the whole call.  Nothing is removed from `offer_ids`. -/
def create_prices : List Watch → List String → Option (List MarketPriceRecord)
  | [], _ => some []
  | w :: rest, offer_ids =>
    if w.code ∈ offer_ids then
      match pyInt (price_conversion w.price) with
      | none => none
      | some v =>
        match create_prices rest offer_ids with
        | none => none
        | some ps => some (⟨w.code, ⟨v, "RUR"⟩⟩ :: ps)
    else create_prices rest offer_ids

/-- The chunk-upload loop shared by market.py `upload_stocks` (lines
299-300) and its peers: issue one update call per chunk, in chunk order,
stopping at the first failure.  `call` abstracts the HTTP update
endpoint; the first component is the trace of chunks for which a call
was issued (the marketplace has durably applied every chunk whose call
succeeded, and nothing is rolled back), the second the propagated error,
if any. -/
def runUpload (call : List α → Except ε Unit) :
    List (List α) → List (List α) × Option ε
  | [] => ([], none)
  | c :: rest =>
    match call c with
    | Except.error e => ([c], some e)
    | Except.ok _ =>
      let p := runUpload call rest
      (c :: p.1, p.2)

/-- The sending step of market.py `upload_stocks` (lines 297-304):
partition the reconciled stock records at the Yandex batch size 2000 and
issue the chunk calls in order. -/
def upload_stocks_send (call : List MarketStockRecord → Except ε Unit)
    (stocks : List MarketStockRecord) :
    List (List MarketStockRecord) × Option ε :=
  runUpload call (divide stocks 2000)

/-- The timestamp-erasing projection of a Yandex stock record, used to
state determinism of reconciliation modulo the batch timestamp. -/
def stock_shape (r : MarketStockRecord) : String × String × List (Int × String) :=
  (r.sku, r.warehouseId, r.items.map (fun i => (i.count, i.type)))

/-- The Yandex record built from a flat stock record: the two
`create_stocks` loops differ only in this per-record shape. -/
def toMarket (date wid : String) (s : seller.StockRecord) : MarketStockRecord :=
  ⟨s.offer_id, wid, [⟨s.stock, "FIT", date⟩]⟩

end market

theorem divide_nil {α : Type _} (n : Nat) : divide ([] : List α) n = [] := by
  simp [divide]

theorem divide_cons_eq {α : Type _} (l : List α) (n : Nat) (hl : l ≠ [])
    (hn : 0 < n) : divide l n = l.take n :: divide (l.drop n) n := by
  cases l with
  | nil => exact absurd rfl hl
  | cons a rest => rw [divide, dif_pos hn]

theorem divide_eq_nil_iff {α : Type _} (l : List α) (n : Nat) (hn : 0 < n) :
    divide l n = [] ↔ l = [] := by
  cases l with
  | nil => simp [divide_nil]
  | cons a rest => rw [divide_cons_eq _ _ (by simp) hn]; simp

theorem divide_flatten {α : Type _} (n : Nat) (hn : 0 < n) :
    (l : List α) → (divide l n).flatten = l
  | [] => by simp [divide_nil]
  | a :: rest => by
    rw [divide_cons_eq _ _ (by simp) hn, List.flatten_cons,
      divide_flatten n hn ((a :: rest).drop n), List.take_append_drop]
termination_by l => l.length
decreasing_by
  simp only [List.length_drop, List.length_cons]
  omega

theorem divide_mem_bounds {α : Type _} (n : Nat) (hn : 0 < n) :
    (l : List α) → ∀ c ∈ divide l n, c.length ≤ n ∧ c ≠ []
  | [] => by simp [divide_nil]
  | a :: rest => by
    rw [divide_cons_eq _ _ (by simp) hn]
    intro c hc
    rcases List.mem_cons.mp hc with rfl | hc2
    · constructor
      · simp [List.length_take]
      · have : 0 < ((a :: rest).take n).length := by
          simp [List.length_take]; omega
        exact List.length_pos.mp this
    · exact divide_mem_bounds n hn ((a :: rest).drop n) c hc2
termination_by l => l.length
decreasing_by
  simp only [List.length_drop, List.length_cons]
  omega

theorem divide_dropLast_full {α : Type _} (n : Nat) (hn : 0 < n) :
    (l : List α) → ∀ c ∈ (divide l n).dropLast, c.length = n
  | [] => by simp [divide_nil]
  | a :: rest => by
    rw [divide_cons_eq _ _ (by simp) hn]
    by_cases hd : (a :: rest).drop n = []
    · rw [hd, divide_nil]
      simp
    · have hne : divide ((a :: rest).drop n) n ≠ [] :=
        fun h => hd ((divide_eq_nil_iff _ n hn).mp h)
      rw [List.dropLast_cons_of_ne_nil hne]
      intro c hc
      rcases List.mem_cons.mp hc with rfl | hc2
      · have hlt : n < (a :: rest).length := by
          rcases Nat.lt_or_ge n (a :: rest).length with h | h
          · exact h
          · exact absurd (List.drop_eq_nil_iff.mpr h) hd
        simp only [List.length_take, List.length_cons] at hlt ⊢
        omega
      · exact divide_dropLast_full n hn ((a :: rest).drop n) c hc2
termination_by l => l.length
decreasing_by
  simp only [List.length_drop, List.length_cons]
  omega

theorem divide_getLast_len {α : Type _} (n : Nat) (hn : 0 < n) :
    (l : List α) → l ≠ [] →
      ∃ c, (divide l n).getLast? = some c ∧
        c.length = (if l.length % n = 0 then n else l.length % n)
  | [], h => absurd rfl h
  | a :: rest, _ => by
    rw [divide_cons_eq _ _ (by simp) hn]
    by_cases hd : (a :: rest).drop n = []
    · have hle : (a :: rest).length ≤ n := List.drop_eq_nil_iff.mp hd
      rw [hd, divide_nil]
      refine ⟨(a :: rest).take n, rfl, ?_⟩
      rw [List.take_of_length_le hle]
      rcases Nat.lt_or_ge (a :: rest).length n with hlt | hge
      · rw [Nat.mod_eq_of_lt hlt, if_neg (by simp)]
      · have heq : (a :: rest).length = n := Nat.le_antisymm hle hge
        rw [heq, Nat.mod_self, if_pos rfl]
    · have hne : divide ((a :: rest).drop n) n ≠ [] :=
        fun h => hd ((divide_eq_nil_iff _ n hn).mp h)
      obtain ⟨c, hc1, hc2⟩ := divide_getLast_len n hn ((a :: rest).drop n) hd
      refine ⟨c, ?_, ?_⟩
      · cases hdiv : divide ((a :: rest).drop n) n with
        | nil => exact absurd hdiv hne
        | cons d ds =>
          rw [List.getLast?_cons_cons]
          rw [hdiv] at hc1
          exact hc1
      · have hlt : n < (a :: rest).length := by
          rcases Nat.lt_or_ge n (a :: rest).length with h | h
          · exact h
          · exact absurd (List.drop_eq_nil_iff.mpr h) hd
        rw [List.length_drop] at hc2
        have hmod : ((a :: rest).length - n) % n = (a :: rest).length % n :=
          (Nat.mod_eq_sub_mod (Nat.le_of_lt hlt)).symm
        rw [hmod] at hc2
        exact hc2
termination_by l => l.length
decreasing_by
  simp only [List.length_drop, List.length_cons]
  omega

namespace seller

theorem create_stocks_matched_sound :
    ∀ (F : List Watch) (C : List String) (st : List StockRecord)
      (rem : List String),
      create_stocks_matched F C = some (st, rem) →
      ((st.map StockRecord.offer_id) ++ rem).Perm C ∧
        ∀ s ∈ st, ∃ w ∈ F, w.code = s.offer_id ∧
          normalizeQuantity w.quantity = some s.stock := by
  intro F
  induction F with
  | nil =>
    intro C st rem h
    simp only [create_stocks_matched] at h
    cases h
    refine ⟨by simp, by simp⟩
  | cons w rest ih =>
    intro C st rem h
    simp only [create_stocks_matched] at h
    by_cases hw : w.code ∈ C
    · rw [if_pos hw] at h
      cases hq : normalizeQuantity w.quantity with
      | none => rw [hq] at h; exact absurd h (by simp)
      | some q =>
        rw [hq] at h
        cases hr : create_stocks_matched rest (C.erase w.code) with
        | none => rw [hr] at h; exact absurd h (by simp)
        | some p =>
          obtain ⟨st2, rem2⟩ := p
          rw [hr] at h
          cases h
          obtain ⟨ihp, ihs⟩ := ih (C.erase w.code) st2 rem hr
          constructor
          · simp only [List.map_cons, List.cons_append]
            exact (ihp.cons w.code).trans (List.perm_cons_erase hw).symm
          · intro s hs
            rcases List.mem_cons.mp hs with rfl | hs2
            · exact ⟨w, List.mem_cons_self w rest, rfl, hq⟩
            · obtain ⟨w2, hw2, hcode, hqty⟩ := ihs s hs2
              exact ⟨w2, List.mem_cons_of_mem w hw2, hcode, hqty⟩
    · rw [if_neg hw] at h
      obtain ⟨ihp, ihs⟩ := ih C st rem h
      refine ⟨ihp, fun s hs => ?_⟩
      obtain ⟨w2, hw2, hcode, hqty⟩ := ihs s hs
      exact ⟨w2, List.mem_cons_of_mem w hw2, hcode, hqty⟩

theorem create_stocks_matched_rem :
    ∀ (F : List Watch) (C : List String), C.Nodup →
      ∀ (st : List StockRecord) (rem : List String),
        create_stocks_matched F C = some (st, rem) →
        rem = C.filter (fun id => id ∉ F.map Watch.code) := by
  intro F
  induction F with
  | nil =>
    intro C _hC st rem h
    simp only [create_stocks_matched] at h
    cases h
    simp
  | cons w rest ih =>
    intro C hC st rem h
    simp only [create_stocks_matched] at h
    by_cases hw : w.code ∈ C
    · rw [if_pos hw] at h
      cases hq : normalizeQuantity w.quantity with
      | none => rw [hq] at h; exact absurd h (by simp)
      | some q =>
        rw [hq] at h
        cases hr : create_stocks_matched rest (C.erase w.code) with
        | none => rw [hr] at h; exact absurd h (by simp)
        | some p =>
          obtain ⟨st2, rem2⟩ := p
          rw [hr] at h
          cases h
          have hrem := ih (C.erase w.code) (hC.erase w.code) st2 rem hr
          rw [hrem, hC.erase_eq_filter, List.filter_filter]
          apply List.filter_congr
          intro x _hx
          by_cases hxw : x = w.code <;> simp [hxw, List.mem_cons]
    · rw [if_neg hw] at h
      rw [ih C hC st rem h]
      apply List.filter_congr
      intro x hx
      have hxz : x ≠ w.code := fun e => hw (e ▸ hx)
      simp [List.mem_cons, hxz]

theorem create_stocks_inv (F : List Watch) (C : List String)
    (stocks : List StockRecord) (rem : List String)
    (h : create_stocks F C = some (stocks, rem)) :
    ∃ st, create_stocks_matched F C = some (st, rem) ∧
      stocks = st ++ rem.map (fun id => ⟨id, 0⟩) := by
  rw [create_stocks] at h
  cases hm : create_stocks_matched F C with
  | none => rw [hm] at h; exact absurd h (by simp)
  | some p =>
    obtain ⟨a, b⟩ := p
    rw [hm] at h
    cases h
    exact ⟨a, rfl, rfl⟩

theorem create_prices_char (F : List Watch) (C : List String) :
    create_prices F C = (F.filter (fun w => w.code ∈ C)).map
      (fun w => ⟨"UNKNOWN", "RUB", w.code, "0", price_conversion w.price⟩) := by
  induction F with
  | nil => rfl
  | cons w rest ih =>
    simp only [create_prices, List.filter_cons]
    by_cases hw : w.code ∈ C
    · rw [if_pos hw]
      simp [hw, ih]
    · rw [if_neg hw]
      simp [hw, ih]

end seller

namespace market

theorem create_stocks_matched_eq_seller (date wid : String) :
    ∀ (F : List Watch) (C : List String),
      create_stocks_matched date wid F C =
        (seller.create_stocks_matched F C).map
          (fun p => (p.1.map (toMarket date wid), p.2)) := by
  intro F
  induction F with
  | nil => intro C; rfl
  | cons w rest ih =>
    intro C
    simp only [create_stocks_matched, seller.create_stocks_matched]
    by_cases hw : w.code ∈ C
    · cases hq : normalizeQuantity w.quantity with
      | none => simp only [if_pos hw, hq]; rfl
      | some q =>
        simp only [if_pos hw, hq]
        rw [ih (C.erase w.code)]
        cases hr : seller.create_stocks_matched rest (C.erase w.code) with
        | none => rfl
        | some p =>
          obtain ⟨st2, rem2⟩ := p
          simp [toMarket]
    · rw [if_neg hw, if_neg hw]
      exact ih C

theorem create_stocks_eq_seller (date : String) (F : List Watch)
    (C : List String) (wid : String) :
    create_stocks date F C wid =
      (seller.create_stocks F C).map
        (fun p => (p.1.map (toMarket date wid), p.2)) := by
  simp only [create_stocks, seller.create_stocks,
    create_stocks_matched_eq_seller date wid F C]
  cases hr : seller.create_stocks_matched F C with
  | none => rfl
  | some p =>
    obtain ⟨st2, rem2⟩ := p
    simp [toMarket, List.map_map]

theorem runUpload_all_ok {α ε : Type _} (call : List α → Except ε Unit) :
    ∀ chunks : List (List α), (∀ c ∈ chunks, call c = Except.ok ()) →
      runUpload call chunks = (chunks, none) := by
  intro chunks
  induction chunks with
  | nil => intro _; rfl
  | cons c rest ih =>
    intro h
    have hc : call c = Except.ok () := h c (List.mem_cons_self c rest)
    simp only [runUpload, hc]
    rw [ih (fun x hx => h x (List.mem_cons_of_mem c hx))]

theorem runUpload_fails {α ε : Type _} (call : List α → Except ε Unit) (e : ε) :
    ∀ (pre : List (List α)) (c : List α) (post : List (List α)),
      (∀ x ∈ pre, call x = Except.ok ()) → call c = Except.error e →
      runUpload call (pre ++ c :: post) = (pre ++ [c], some e) := by
  intro pre
  induction pre with
  | nil =>
    intro c post _ hc
    simp only [List.nil_append, runUpload, hc]
  | cons p rest ih =>
    intro c post hok hc
    have hp : call p = Except.ok () := hok p (List.mem_cons_self p rest)
    rw [List.cons_append]
    simp only [runUpload, hp, List.append_eq]
    rw [ih c post (fun x hx => hok x (List.mem_cons_of_mem p hx)) hc]
    simp

end market
namespace seller

theorem get_offer_ids_loop_none (page : String → Page) :
    ∀ (fuel n : Nat),
      (∀ k, n ≤ k → k < n + fuel → ¬ exit_at page k) →
      get_offer_ids_loop page fuel (pager_state page n).1
        (pager_state page n).2 = none := by
  intro fuel
  induction fuel with
  | zero => intro n _; rfl
  | succ m ih =>
    intro n h
    have hn : ¬ exit_at page n := h n (Nat.le_refl n) (by omega)
    simp only [exit_at] at hn
    simp only [get_offer_ids_loop]
    rw [if_neg hn]
    exact ih (n + 1) (fun k hk1 hk2 => h k (by omega) (by omega))

theorem get_offer_ids_loop_some_exit (page : String → Page) :
    ∀ (fuel n k : Nat), n ≤ k → k < n + fuel → exit_at page k →
      (∀ m, n ≤ m → m < k → ¬ exit_at page m) →
      get_offer_ids_loop page fuel (pager_state page n).1
        (pager_state page n).2 = some (pager_state page (k + 1)).2 := by
  intro fuel
  induction fuel with
  | zero => intro n k h1 h2 _ _; exact absurd h2 (by omega)
  | succ m ih =>
    intro n k h1 h2 hex hmin
    simp only [get_offer_ids_loop]
    by_cases hk : k = n
    · subst hk
      have hex2 := hex
      simp only [exit_at] at hex2
      rw [if_pos hex2]
      rfl
    · have hnk : n < k := Nat.lt_of_le_of_ne h1 (fun e => hk e.symm)
      have hnex : ¬ exit_at page n := hmin n (Nat.le_refl n) hnk
      simp only [exit_at] at hnex
      rw [if_neg hnex]
      exact ih (n + 1) k (by omega) (by omega) hex
        (fun m2 hm1 hm2 => hmin m2 (by omega) hm2)

theorem get_offer_ids_loop_some_inv (page : String → Page) :
    ∀ (fuel n : Nat) (r : List Product),
      get_offer_ids_loop page fuel (pager_state page n).1
        (pager_state page n).2 = some r →
      ∃ k, n ≤ k ∧ k < n + fuel ∧ exit_at page k ∧
        r = (pager_state page (k + 1)).2 := by
  intro fuel
  induction fuel with
  | zero => intro n r h; exact absurd h (by simp [get_offer_ids_loop])
  | succ m ih =>
    intro n r h
    simp only [get_offer_ids_loop] at h
    by_cases hex : exit_at page n
    · have hex2 := hex
      simp only [exit_at] at hex2
      rw [if_pos hex2] at h
      exact ⟨n, Nat.le_refl n, by omega, hex, (Option.some.inj h).symm⟩
    · have hex2 := hex
      simp only [exit_at] at hex2
      rw [if_neg hex2] at h
      obtain ⟨k, hk1, hk2, hk3, hk4⟩ := ih (n + 1) r h
      exact ⟨k, by omega, by omega, hk3, hk4⟩

end seller
theorem seller.create_stocks_perm (F : List Watch) (C : List String)
    (stocks : List seller.StockRecord) (rem : List String)
    (h : seller.create_stocks F C = some (stocks, rem)) :
    (stocks.map seller.StockRecord.offer_id).Perm C := by
  obtain ⟨st, hm, rfl⟩ := seller.create_stocks_inv F C stocks rem h
  obtain ⟨hperm, _⟩ := seller.create_stocks_matched_sound F C st rem hm
  have hmap : ((st ++ rem.map (fun id => (⟨id, 0⟩ : seller.StockRecord))).map
      seller.StockRecord.offer_id)
      = st.map seller.StockRecord.offer_id ++ rem := by
    simp only [List.map_append, List.map_map]
    congr 1
    exact List.map_id rem
  rw [hmap]
  exact hperm

theorem splitOnDot_ne_nil : ∀ cs : List Char, splitOnDot cs ≠ []
  | [] => by simp [splitOnDot]
  | c :: rest => by
    simp only [splitOnDot]
    by_cases hc : c = '.'
    · simp [hc]
    · rw [if_neg hc]
      cases hs : splitOnDot rest with
      | nil => simp
      | cons h t => simp

theorem splitOnDot_headD : ∀ cs : List Char,
    (splitOnDot cs).headD [] = cs.takeWhile (fun c => c != '.')
  | [] => rfl
  | c :: rest => by
    simp only [splitOnDot, List.takeWhile_cons]
    by_cases hc : c = '.'
    · simp [hc]
    · rw [if_neg hc]
      cases hs : splitOnDot rest with
      | nil => exact absurd hs (splitOnDot_ne_nil rest)
      | cons h t =>
        have := splitOnDot_headD rest
        rw [hs] at this
        simp only [List.headD_cons] at this
        simp [hc, this]

theorem price_conversion_takeWhile (t : String) :
    (price_conversion t).data
      = (t.data.takeWhile (fun c => c != '.')).filter Char.isDigit := by
  simp only [price_conversion]
  rw [splitOnDot_headD]

theorem divide_2500_2000 {α : Type _} (l : List α) (hl : l.length = 2500) :
    divide l 2000 = [l.take 2000, l.drop 2000] := by
  have h1 : l ≠ [] := by
    intro e
    rw [e] at hl
    simp at hl
  rw [divide_cons_eq l 2000 h1 (by norm_num)]
  have h2 : l.drop 2000 ≠ [] := by
    intro e
    have := List.drop_eq_nil_iff.mp e
    omega
  rw [divide_cons_eq (l.drop 2000) 2000 h2 (by norm_num)]
  have h3 : (l.drop 2000).drop 2000 = [] := by
    apply List.drop_eq_nil_iff.mpr
    simp [hl]
  have h4 : (l.drop 2000).take 2000 = l.drop 2000 :=
    List.take_of_length_le (by simp [hl])
  rw [h3, h4, divide_nil]
/-- Claim C1: for every feed sequence and every catalog list of unique
offer identifiers, a successful seller reconciliation produces stock
records whose offer identifiers are exactly the catalog — each catalog
identifier in exactly one record, matched identifiers carrying a
feed-derived quantity and unmatched identifiers carrying quantity 0 —
and every stock record and every price record carries a catalog
identifier, so a feed record whose coerced code is absent from the
catalog contributes no stock record and no price record. -/
theorem claim1_reconciliation_exact (F : List Watch) (C : List String)
    (hC : C.Nodup) (stocks : List seller.StockRecord) (rem : List String)
    (h : seller.create_stocks F C = some (stocks, rem)) :
    (stocks.map seller.StockRecord.offer_id).Perm C
    ∧ (∀ id ∈ C, (stocks.map seller.StockRecord.offer_id).count id = 1)
    ∧ (∀ s ∈ stocks, s.offer_id ∉ F.map Watch.code → s.stock = 0)
    ∧ (∀ s ∈ stocks, s.offer_id ∈ F.map Watch.code →
        ∃ w ∈ F, w.code = s.offer_id ∧
          normalizeQuantity w.quantity = some s.stock)
    ∧ (∀ s ∈ stocks, s.offer_id ∈ C)
    ∧ (∀ p ∈ seller.create_prices F C, p.offer_id ∈ C) := by
  have hperm2 := seller.create_stocks_perm F C stocks rem h
  obtain ⟨st, hm, hsteq⟩ := seller.create_stocks_inv F C stocks rem h
  obtain ⟨_, hprov⟩ := seller.create_stocks_matched_sound F C st rem hm
  have hrem := seller.create_stocks_matched_rem F C hC st rem hm
  refine ⟨hperm2, ?_, ?_, ?_, ?_, ?_⟩
  · intro id hid
    rw [hperm2.count_eq]
    exact List.count_eq_one_of_mem hC hid
  · intro s hs hnot
    rw [hsteq] at hs
    rcases List.mem_append.mp hs with hs1 | hs2
    · obtain ⟨w, hw, hcode, _⟩ := hprov s hs1
      exact absurd (hcode ▸ List.mem_map_of_mem Watch.code hw) hnot
    · obtain ⟨id, _, rfl⟩ := List.mem_map.mp hs2
      rfl
  · intro s hs hin
    rw [hsteq] at hs
    rcases List.mem_append.mp hs with hs1 | hs2
    · exact hprov s hs1
    · obtain ⟨id, hid, rfl⟩ := List.mem_map.mp hs2
      rw [hrem] at hid
      have hnm := List.of_mem_filter hid
      simp only [decide_eq_true_eq] at hnm
      exact absurd hin hnm
  · intro s hs
    exact hperm2.subset (List.mem_map_of_mem seller.StockRecord.offer_id hs)
  · intro p hp
    rw [seller.create_prices_char] at hp
    obtain ⟨w, hw, rfl⟩ := List.mem_map.mp hp
    have := List.of_mem_filter hw
    simpa using this

/-- Concrete instantiation of `claim1_reconciliation_exact` on the feed
`[{code A, qty >10}]` and catalog `[A, B]`. -/
theorem claim1_reconciliation_exact_witness :
    (List.Nodup ["A", "B"]
      ∧ seller.create_stocks [⟨"A", ">10", "9.0"⟩] ["A", "B"]
          = some ([⟨"A", 100⟩, ⟨"B", 0⟩], ["B"]))
    ∧ ((([⟨"A", 100⟩, ⟨"B", 0⟩] : List seller.StockRecord).map
          seller.StockRecord.offer_id).Perm ["A", "B"]
      ∧ (∀ id ∈ ["A", "B"],
          (([⟨"A", 100⟩, ⟨"B", 0⟩] : List seller.StockRecord).map
            seller.StockRecord.offer_id).count id = 1)
      ∧ (∀ s ∈ ([⟨"A", 100⟩, ⟨"B", 0⟩] : List seller.StockRecord),
          s.offer_id ∉ ([⟨"A", ">10", "9.0"⟩] : List Watch).map Watch.code → s.stock = 0)
      ∧ (∀ s ∈ ([⟨"A", 100⟩, ⟨"B", 0⟩] : List seller.StockRecord),
          s.offer_id ∈ ([⟨"A", ">10", "9.0"⟩] : List Watch).map Watch.code →
          ∃ w ∈ ([⟨"A", ">10", "9.0"⟩] : List Watch), w.code = s.offer_id ∧
            normalizeQuantity w.quantity = some s.stock)
      ∧ (∀ s ∈ ([⟨"A", 100⟩, ⟨"B", 0⟩] : List seller.StockRecord),
          s.offer_id ∈ ["A", "B"])
      ∧ (∀ p ∈ seller.create_prices [⟨"A", ">10", "9.0"⟩] ["A", "B"],
          p.offer_id ∈ ["A", "B"])) :=
  ⟨⟨by decide, by decide⟩,
    claim1_reconciliation_exact [⟨"A", ">10", "9.0"⟩] ["A", "B"] (by decide)
      [⟨"A", 100⟩, ⟨"B", 0⟩] ["B"] (by decide)⟩

/-- Claim C2 counterexample: the at-most-once guarantee does NOT hold for
price records.  With the feed `[{code A}, {code A}]` and catalog `[A]`,
seller `create_prices` emits two price records for the identifier `A`,
because it never removes a matched identifier from the list. -/
theorem claim2_counterexample :
    ¬ (((seller.create_prices [⟨"A", "5", "9"⟩, ⟨"A", "5", "9"⟩]
        ["A"]).map seller.PriceRecord.offer_id).count "A" ≤ 1) := by decide

/-- Claim C2 (amended): with a duplicate-free catalog, reconciliation
emits at most one stock record per identifier even when the feed
duplicates a code (the matched identifier is removed from the working
copy in `create_stocks`); `create_prices` performs no removal, so it
emits one price record per feed occurrence of a catalog code — the
at-most-once guarantee does not extend to price records. -/
theorem claim2_amended_at_most_once (F : List Watch) (C : List String)
    (hC : C.Nodup) (stocks : List seller.StockRecord) (rem : List String)
    (h : seller.create_stocks F C = some (stocks, rem)) :
    (∀ id, (stocks.map seller.StockRecord.offer_id).count id ≤ 1)
    ∧ (seller.create_prices F C).map seller.PriceRecord.offer_id
        = (F.filter (fun w => w.code ∈ C)).map Watch.code := by
  constructor
  · intro id
    rw [(seller.create_stocks_perm F C stocks rem h).count_eq]
    exact List.nodup_iff_count_le_one.mp hC id
  · rw [seller.create_prices_char]
    simp [List.map_map, Function.comp]

/-- Concrete instantiation of `claim2_amended_at_most_once` on a feed
that duplicates the code `A`. -/
theorem claim2_amended_witness :
    (List.Nodup ["A"]
      ∧ seller.create_stocks [⟨"A", "5", "9"⟩, ⟨"A", "5", "9"⟩] ["A"]
          = some ([⟨"A", 5⟩], []))
    ∧ ((∀ id, (([⟨"A", 5⟩] : List seller.StockRecord).map
          seller.StockRecord.offer_id).count id ≤ 1)
      ∧ (seller.create_prices [⟨"A", "5", "9"⟩, ⟨"A", "5", "9"⟩]
            ["A"]).map seller.PriceRecord.offer_id
          = (([⟨"A", "5", "9"⟩, ⟨"A", "5", "9"⟩] : List Watch).filter
              (fun w => w.code ∈ ["A"])).map Watch.code) :=
  ⟨⟨by decide, by decide⟩,
    claim2_amended_at_most_once [⟨"A", "5", "9"⟩, ⟨"A", "5", "9"⟩] ["A"]
      (by decide) [⟨"A", 5⟩] [] (by decide)⟩
/-- Claim C3 counterexample: `price_conversion` does not fail on a token
whose stripped remainder is empty — it returns the empty string, and
seller `create_prices` emits a price record whose price is that empty
string instead of raising an error. -/
theorem claim3_counterexample :
    price_conversion "руб" = ""
    ∧ seller.create_prices [⟨"X", "5", "руб"⟩] ["X"]
        = [⟨"UNKNOWN", "RUB", "X", "0", ""⟩] :=
  ⟨by decide, by decide⟩

/-- Claim C3 (amended): `price_conversion` keeps the part of the token
before the first dot, strips every non-digit character, and returns the
remaining digit string without parsing it and without ever failing;
`"5'990.00 руб"` yields the string `"5990"` and `"199 руб."` yields
`"199"`.  An all-non-digit token yields the empty string, which seller
`create_prices` emits as-is; only market `create_prices`, which passes
the result through Python `int`, fails there (`int("")` raises, modelled
by `pyInt "" = none`). -/
theorem claim3_amended_price_conversion (t : String) :
    (price_conversion t).data
      = (t.data.takeWhile (fun c => c != '.')).filter Char.isDigit
    ∧ price_conversion "5\x27990.00 руб" = "5990"
    ∧ price_conversion "199 руб." = "199"
    ∧ pyInt "" = none
    ∧ market.create_prices [⟨"X", "5", "руб"⟩] ["X"] = none :=
  ⟨price_conversion_takeWhile t, by decide, by decide, by decide, by decide⟩

/-- Claim C4 counterexample: a seller reconciliation call does not leave
the caller's offer-identifier collection unchanged — with the feed
`[{code A}]` and collection `[A]`, the collection's state after the call
(the second component of the embedded result, modelling Python
`list.remove` mutation) is `[]`, not the original `[A]`. -/
theorem claim4_counterexample :
    seller.create_stocks [⟨"A", "5", "9"⟩] ["A"] = some ([⟨"A", 5⟩], [])
    ∧ ([] : List String) ≠ ["A"] :=
  ⟨by decide, by decide⟩

/-- Claim C4 (amended): the working copy is the caller's own collection,
mutated in place: after a successful `create_stocks` call on a
duplicate-free collection, the collection holds exactly the identifiers
whose code never occurs in the feed (in original order), and a later
`create_prices` call reusing the same mutated collection — the sequence
in seller `main` — therefore produces no price records at all. -/
theorem claim4_amended_mutation (F : List Watch) (C : List String)
    (hC : C.Nodup) (stocks : List seller.StockRecord) (rem : List String)
    (h : seller.create_stocks F C = some (stocks, rem)) :
    rem = C.filter (fun id => id ∉ F.map Watch.code)
    ∧ seller.create_prices F rem = [] := by
  obtain ⟨st, hm, _⟩ := seller.create_stocks_inv F C stocks rem h
  have hrem := seller.create_stocks_matched_rem F C hC st rem hm
  refine ⟨hrem, ?_⟩
  rw [seller.create_prices_char]
  have hfil : F.filter (fun w => w.code ∈ rem) = [] := by
    rw [List.filter_eq_nil_iff]
    intro w hw hcontra
    have hmem : w.code ∈ rem := of_decide_eq_true hcontra
    rw [hrem, List.mem_filter] at hmem
    exact (of_decide_eq_true hmem.2) (List.mem_map_of_mem Watch.code hw)
  rw [hfil]
  rfl

/-- Concrete instantiation of `claim4_amended_mutation`: after matching
`A`, the caller's collection is left holding only `B`, and re-running
price creation on it yields nothing. -/
theorem claim4_amended_witness :
    (List.Nodup ["A", "B"]
      ∧ seller.create_stocks [⟨"A", "3", "9"⟩] ["A", "B"]
          = some ([⟨"A", 3⟩, ⟨"B", 0⟩], ["B"]))
    ∧ (["B"] = ["A", "B"].filter
          (fun id => id ∉ ([⟨"A", "3", "9"⟩] : List Watch).map Watch.code)
      ∧ seller.create_prices [⟨"A", "3", "9"⟩] ["B"] = []) :=
  ⟨⟨by decide, by decide⟩,
    claim4_amended_mutation [⟨"A", "3", "9"⟩] ["A", "B"] (by decide)
      [⟨"A", 3⟩, ⟨"B", 0⟩] ["B"] (by decide)⟩

/-- Claim C5: the quantity normalizer has exactly three prioritized
rules — the `">10"` sentinel yields 100, the literal `"1"` yields 0, and
any other token is parsed as a base-10 integer, failing (rather than
being coerced to zero) when unparseable; a result of 0 arises only from
the token `"1"` or from a token that literally parses to 0. -/
theorem claim5_quantity_rules :
    normalizeQuantity ">10" = some 100
    ∧ normalizeQuantity "1" = some 0
    ∧ normalizeQuantity "7" = some 7
    ∧ normalizeQuantity "abc" = none
    ∧ (∀ t, t ≠ ">10" → t ≠ "1" → normalizeQuantity t = pyInt t)
    ∧ (∀ t, normalizeQuantity t = some 0 → t = "1" ∨ pyInt t = some 0) := by
  refine ⟨by decide, by decide, by decide, by decide, ?_, ?_⟩
  · intro t h1 h2
    simp [normalizeQuantity, h1, h2]
  · intro t h
    by_cases h1 : t = ">10"
    · subst h1
      exact absurd h (by decide)
    · by_cases h2 : t = "1"
      · exact Or.inl h2
      · right
        simpa [normalizeQuantity, h1, h2] using h

/-- Concrete instantiation of the fall-through rule of
`claim5_quantity_rules`. -/
theorem claim5_witness :
    ("7" ≠ ">10") ∧ ("7" ≠ "1") ∧ normalizeQuantity "7" = pyInt "7" :=
  ⟨by decide, by decide,
    claim5_quantity_rules.2.2.2.2.1 "7" (by decide) (by decide)⟩
/-- Claim C6: the upload step partitions the reconciled records at the
batch size 2000 and issues one update call per chunk in chunk order — a
2500-record list yields exactly 2 chunks, of 2000 then 500 records.  In
the spec's failure scenario, where the first call succeeds and the
second raises, the trace shows both calls issued, the first chunk's
effect retained (not rolled back), and the error propagated; in
general, a chunk failure stops all later chunks while all-success sends
every chunk in order with no error. -/
theorem claim6_chunked_upload {ε : Type}
    (stocks : List market.MarketStockRecord)
    (call : List market.MarketStockRecord → Except ε Unit) (e : ε)
    (hlen : stocks.length = 2500)
    (h1 : call (stocks.take 2000) = Except.ok ())
    (h2 : call (stocks.drop 2000) = Except.error e) :
    divide stocks 2000 = [stocks.take 2000, stocks.drop 2000]
    ∧ (divide stocks 2000).map List.length = [2000, 500]
    ∧ market.upload_stocks_send call stocks
        = ([stocks.take 2000, stocks.drop 2000], some e)
    ∧ (∀ (st2 : List market.MarketStockRecord)
        (call2 : List market.MarketStockRecord → Except ε Unit),
        (∀ c ∈ divide st2 2000, call2 c = Except.ok ()) →
        market.upload_stocks_send call2 st2 = (divide st2 2000, none))
    ∧ (∀ (call3 : List market.MarketStockRecord → Except ε Unit) (e3 : ε)
        (pre : List (List market.MarketStockRecord))
        (c : List market.MarketStockRecord)
        (post : List (List market.MarketStockRecord)),
        (∀ x ∈ pre, call3 x = Except.ok ()) → call3 c = Except.error e3 →
        market.runUpload call3 (pre ++ c :: post) = (pre ++ [c], some e3)) := by
  have hd := divide_2500_2000 stocks hlen
  refine ⟨hd, ?_, ?_, ?_, ?_⟩
  · rw [hd]
    simp [List.length_take, List.length_drop, hlen]
  · rw [market.upload_stocks_send, hd]
    have hrun := market.runUpload_fails call e [stocks.take 2000]
      (stocks.drop 2000) []
      (by
        intro x hx
        rcases List.mem_singleton.mp hx with rfl
        exact h1)
      h2
    simpa using hrun
  · intro st2 call2 hok
    rw [market.upload_stocks_send]
    exact market.runUpload_all_ok call2 (divide st2 2000) hok
  · intro call3 e3 pre c post hok hc
    exact market.runUpload_fails call3 e3 pre c post hok hc

/-- Concrete instantiation of `claim6_chunked_upload` on 2500 identical
records with a call that rejects the second (500-element) chunk. -/
theorem claim6_chunked_upload_witness :
    market.upload_stocks_send
      (fun c : List market.MarketStockRecord =>
        if c.length = 2000 then Except.ok () else Except.error "boom")
      (List.replicate 2500 ⟨"s", "w", []⟩)
      = ([(List.replicate 2500
            (⟨"s", "w", []⟩ : market.MarketStockRecord)).take 2000,
          (List.replicate 2500
            (⟨"s", "w", []⟩ : market.MarketStockRecord)).drop 2000],
         some "boom") :=
  (claim6_chunked_upload (List.replicate 2500 ⟨"s", "w", []⟩)
    (fun c => if c.length = 2000 then Except.ok () else Except.error "boom")
    "boom"
    (by simp only [List.length_replicate])
    (by simp only [List.length_take, List.length_replicate]; norm_num)
    (by simp only [List.length_drop, List.length_replicate]; norm_num)).2.2.1

/-- Claim C7: in the market implementation — the one whose stock records
carry a timestamp — every stock record of one reconciliation run embeds
the single `date` value captured once at the start of the run, before
the feed is traversed (`create_stocks` takes it as the one value
produced by the single `utcnow()` call at lines 174-175); no record
carries a different instant. -/
theorem claim7_single_timestamp (date : String) (F : List Watch)
    (C : List String) (wid : String)
    (stocks : List market.MarketStockRecord) (rem : List String)
    (h : market.create_stocks date F C wid = some (stocks, rem)) :
    ∀ s ∈ stocks, ∀ i ∈ s.items, i.updatedAt = date := by
  rw [market.create_stocks_eq_seller] at h
  cases hs : seller.create_stocks F C with
  | none =>
    rw [hs] at h
    exact absurd h (by simp)
  | some p =>
    obtain ⟨st2, rem2⟩ := p
    rw [hs] at h
    simp only [Option.map_some'] at h
    cases h
    intro s hsm i hi
    obtain ⟨s2, _, rfl⟩ := List.mem_map.mp hsm
    simp only [market.toMarket, List.mem_singleton] at hi
    rw [hi]

/-- Concrete instantiation of `claim7_single_timestamp`: both the
matched record for `A` and the zero-stock record for `B` carry the one
batch timestamp `"T"`. -/
theorem claim7_single_timestamp_witness :
    (market.create_stocks "T" [⟨"A", "2", "9"⟩] ["A", "B"] "W"
        = some ([⟨"A", "W", [⟨2, "FIT", "T"⟩]⟩,
                 ⟨"B", "W", [⟨0, "FIT", "T"⟩]⟩], ["B"]))
    ∧ (∀ s ∈ ([⟨"A", "W", [⟨2, "FIT", "T"⟩]⟩,
               ⟨"B", "W", [⟨0, "FIT", "T"⟩]⟩] :
          List market.MarketStockRecord),
        ∀ i ∈ s.items, i.updatedAt = "T") :=
  ⟨by decide,
    claim7_single_timestamp "T" [⟨"A", "2", "9"⟩] ["A", "B"] "W"
      [⟨"A", "W", [⟨2, "FIT", "T"⟩]⟩, ⟨"B", "W", [⟨0, "FIT", "T"⟩]⟩] ["B"]
      (by decide)⟩
/-- Claim C8: for every list and every chunk size n ≥ 1, `divide` yields
contiguous, order-preserving, non-overlapping chunks — their
concatenation is the original list — each chunk non-empty and of at most
n elements, every chunk but the last of exactly n elements, the last of
`length mod n` elements (or n when n divides evenly); the empty list
yields no chunks, and `divide [1,2,3,4,5] 2 = [[1,2],[3,4],[5]]`. -/
theorem claim8_partition {α : Type _} (n : Nat) (hn : 1 ≤ n) (l : List α) :
    (divide l n).flatten = l
    ∧ (∀ c ∈ (divide l n).dropLast, c.length = n)
    ∧ (∀ c ∈ divide l n, c.length ≤ n ∧ c ≠ [])
    ∧ divide ([] : List α) n = []
    ∧ (l ≠ [] → ∃ c, (divide l n).getLast? = some c ∧
        c.length = (if l.length % n = 0 then n else l.length % n))
    ∧ divide ([1, 2, 3, 4, 5] : List Nat) 2 = [[1, 2], [3, 4], [5]] :=
  ⟨divide_flatten n hn l, divide_dropLast_full n hn l,
    divide_mem_bounds n hn l, divide_nil n,
    fun h => divide_getLast_len n hn l h, by simp [divide]⟩

/-- Concrete instantiation of `claim8_partition` at n = 2 on the spec's
example list. -/
theorem claim8_partition_witness :
    (1 ≤ 2) ∧ ((divide ([1, 2, 3, 4, 5] : List Nat) 2).flatten
      = [1, 2, 3, 4, 5]
    ∧ ([3, 4, 5] : List Nat) ≠ []) :=
  ⟨by decide,
    (claim8_partition 2 (by decide) ([1, 2, 3, 4, 5] : List Nat)).1,
    by decide⟩

/-- Claim C9: record construction is a deterministic function of the
feed and the catalog snapshot — re-running the seller construction on an
unchanged feed and catalog yields identical stock and price records, and
the market construction yields identical records modulo the batch
timestamp: erasing the `updatedAt` field makes two runs with different
timestamps equal. -/
theorem claim9_deterministic (F : List Watch) (C : List String)
    (wid d1 d2 : String) :
    seller.create_stocks F C = seller.create_stocks F C
    ∧ seller.create_prices F C = seller.create_prices F C
    ∧ (market.create_stocks d1 F C wid).map
        (fun p => (p.1.map market.stock_shape, p.2))
      = (market.create_stocks d2 F C wid).map
        (fun p => (p.1.map market.stock_shape, p.2)) := by
  refine ⟨rfl, rfl, ?_⟩
  rw [market.create_stocks_eq_seller d1, market.create_stocks_eq_seller d2]
  cases hs : seller.create_stocks F C with
  | none => rfl
  | some p =>
    obtain ⟨st2, rem2⟩ := p
    simp [market.stock_shape, market.toMarket, List.map_map, Function.comp]

/-- Claim C10: the OZON catalog pager terminates exactly when, at some
iteration, the accumulated item count equals the `total` of the page
just fetched: every successful loop outcome arises from such an
iteration and equals that iteration's accumulator; when the first such
iteration is k, the pager returns the `offer_id` of every accumulated
item in page order; and when no iteration ever satisfies the condition
(for example the endpoint overshoots the total or omits it), the loop
never exits, for any amount of fuel. -/
theorem claim10_pager_termination (page : String → seller.Page) :
    (∀ (fuel : Nat) (r : List seller.Product),
        seller.get_offer_ids_loop page fuel "" [] = some r →
        ∃ k, k < fuel ∧ seller.exit_at page k ∧
          r = (seller.pager_state page (k + 1)).2)
    ∧ (∀ k : Nat, seller.exit_at page k →
        (∀ m, m < k → ¬ seller.exit_at page m) →
        ∀ fuel, k < fuel →
          seller.get_offer_ids page fuel
            = some ((seller.pager_state page (k + 1)).2.map
                seller.Product.offer_id))
    ∧ (∀ fuel : Nat, (∀ n, ¬ seller.exit_at page n) →
        seller.get_offer_ids_loop page fuel "" [] = none) := by
  refine ⟨?_, ?_, ?_⟩
  · intro fuel r h
    have h0 : seller.get_offer_ids_loop page fuel (seller.pager_state page 0).1
        (seller.pager_state page 0).2 = some r := h
    obtain ⟨k, _, hk2, hk3, hk4⟩ :=
      seller.get_offer_ids_loop_some_inv page fuel 0 r h0
    exact ⟨k, by omega, hk3, hk4⟩
  · intro k hex hmin fuel hfuel
    have h0 := seller.get_offer_ids_loop_some_exit page fuel 0 k
      (by omega) (by omega) hex (fun m _ hm => hmin m hm)
    have h1 : seller.get_offer_ids_loop page fuel "" []
        = some (seller.pager_state page (k + 1)).2 := h0
    rw [seller.get_offer_ids, h1]
    rfl
  · intro fuel h
    have h0 := seller.get_offer_ids_loop_none page fuel 0
      (fun k _ _ => h k)
    exact h0

/-- Concrete instantiation of `claim10_pager_termination`: a one-page
endpoint whose total matches after the first page terminates with that
page's offer identifier. -/
theorem claim10_pager_termination_witness :
    seller.exit_at (fun _ => ⟨[⟨"X"⟩], some 1, ""⟩) 0
    ∧ seller.get_offer_ids (fun _ => ⟨[⟨"X"⟩], some 1, ""⟩) 1
        = some ["X"] := by
  refine ⟨by decide, ?_⟩
  have h := (claim10_pager_termination
      (fun _ => ⟨[⟨"X"⟩], some 1, ""⟩)).2.1 0 (by decide)
    (fun m hm => absurd hm (Nat.not_lt_zero m)) 1 (by decide)
  exact h
/-- Concrete instantiation of `claim3_amended_price_conversion` at the
spec's example token. -/
theorem claim3_amended_witness :
    (price_conversion "5\x27990.00 руб").data
      = (("5\x27990.00 руб" : String).data.takeWhile
          (fun c => c != '.')).filter Char.isDigit :=
  (claim3_amended_price_conversion "5\x27990.00 руб").1

/-- Concrete instantiation of `claim9_deterministic` at a one-row feed
and two distinct timestamps. -/
theorem claim9_deterministic_witness :
    (market.create_stocks "T1" [⟨"A", "2", "9"⟩] ["A"] "W").map
        (fun p => (p.1.map market.stock_shape, p.2))
      = (market.create_stocks "T2" [⟨"A", "2", "9"⟩] ["A"] "W").map
        (fun p => (p.1.map market.stock_shape, p.2)) :=
  (claim9_deterministic [⟨"A", "2", "9"⟩] ["A"] "W" "T1" "T2").2.2
